import Mathlib

/-!
Verification of the TeX dependency discovery and resolution engine of `tpmgr`.

This file shallowly embeds the Rust code of `src/tex_parser.rs`,
`src/resolver.rs` and the compile-chain driver of `src/commands.rs` into Lean,
and proves or refutes the frozen claims about it.

Modelling conventions:
* Rust `String`/`&str` values are modelled as Lean `String` or `List Char`.
  Rust byte indices returned by `str::find` coincide with character indices on
  the ASCII inputs exercised here; the embedding works with character lists.
* The regular expressions of the source are embedded as structured pattern
  values (`lA`/`CPat`/`Piece`) together with matchers that implement the
  leftmost-first, greedy-with-backtracking semantics of the Rust `regex`
  crate restricted to the constructs those concrete patterns use
  (literals, `.`-gaps which do not cross a newline, character classes,
  one optional bracket group, one capture group).  All the patterns in the
  source compile successfully, so the `if let Ok(regex)` guards are elided.
* Fallible Rust functions returning `anyhow::Result` are embedded as
  `Except String`.
* Subprocess execution is abstracted: a compile step carries its resolved
  argv together with the observed outcome (launch error, or exit success and
  the combined stdout/stderr text), exactly the data the Rust code inspects.
-/

set_option maxRecDepth 4096

namespace Tpmgr

/-! ## Character classes and the `is_match` model

`CPat` is a single-character matcher: a literal character, the class
`[a-zA-Z]`, a negated class `[^c...]`, or a negated class that additionally
excludes whitespace (`[^\s...]`).  `isWS` models the whitespace set of
regex `\s` (the ASCII part; none of the texts involved contain non-ASCII
whitespace). -/

def isWS (c : Char) : Bool :=
  c == ' ' || c == '\t' || c == '\n' || c == '\r' || c == '\x0b' || c == '\x0c'

inductive CPat where
  | ch (c : Char)
  | alpha
  | noneOf (cs : List Char)
  | notSpaceOr (cs : List Char)
deriving DecidableEq

def cpMatch : CPat → Char → Bool
  | .ch c, x => x == c
  | .alpha, x => ('a' ≤ x && x ≤ 'z') || ('A' ≤ x && x ≤ 'Z')
  | .noneOf cs, x => !(cs.contains x)
  | .notSpaceOr cs, x => !(isWS x) && !(cs.contains x)

/-- Match a contiguous sequence of single-character matchers against a
prefix of `s`; return the remaining suffix on success. -/
def atomAt : List CPat → List Char → Option (List Char)
  | [], s => some s
  | _ :: _, [] => none
  | p :: ps, c :: s => if cpMatch p c then atomAt ps s else none

/-- Literal atom: every character of `s` matched exactly. -/
def lA (s : String) : List CPat := s.toList.map CPat.ch

/-- Search for atom `a` at any position of `s` (characters skipped freely,
newlines included), then continue with `k` on the suffix after the atom.
This models the unanchored search for the first literal of a pattern. -/
def seekAny (a : List CPat) (k : List Char → Bool) : List Char → Bool
  | [] => (match atomAt a [] with | some t => k t | none => false)
  | c :: s' =>
    (match atomAt a (c :: s') with | some t => k t | none => false)
    || seekAny a k s'

/-- Search for atom `a` after a `.*` gap: characters may be skipped only as
long as they are not `'\n'` (the Rust `regex` crate's `.` does not match a
newline). -/
def seekNoNL (a : List CPat) (k : List Char → Bool) : List Char → Bool
  | [] => (match atomAt a [] with | some t => k t | none => false)
  | c :: s' =>
    (match atomAt a (c :: s') with | some t => k t | none => false)
    || ((c != '\n') && seekNoNL a k s')

/-- Match the remaining atoms of a pattern, each preceded by a `.*` gap. -/
def chainNoNL : List (List CPat) → List Char → Bool
  | [], _ => true
  | a :: rest, s => seekNoNL a (fun t => chainNoNL rest t) s

/-- `reMatch p s` models `Regex::new(p).unwrap().is_match(s)` for a pattern
`p` of the shape `A₁.*A₂.*….*Aₙ` (the shape of every pattern used by
`is_package_related_error`). -/
def reMatch (p : List (List CPat)) (s : List Char) : Bool :=
  match p with
  | [] => true
  | a :: rest => seekAny a (fun t => chainNoNL rest t) s

/-! ## `TeXParser::is_package_related_error` (src/tex_parser.rs lines 545-602)

The two pattern lists are transcribed pattern by pattern; `.*` separators in
the source become atom boundaries, `\.` `\{` `\}` `\$` `\\` are the escaped
literal characters, and `[a-zA-Z]` is the class `CPat.alpha`. -/

def packageRelatedPatterns : List (List (List CPat)) :=
  [ [lA ".sty", lA "not found"],
    [lA ".cls", lA "not found"],
    [lA "Package", lA "Error"],
    [lA "Package", lA "Warning"],
    [lA "Unknown option", lA "for package"],
    [lA "Undefined control sequence", lA "\\usepackage"],
    [lA "File", lA ".sty", lA "not found"],
    [lA "File", lA ".cls", lA "not found"],
    [lA "Can\x27t find file", lA ".sty"],
    [lA "I can\x27t find file", lA ".sty"],
    [lA "Undefined control sequence", [CPat.ch '\\', CPat.alpha]],
    [lA "Environment", lA "undefined"],
    [lA "Unknown environment"],
    [lA "Command", lA "not defined"] ]

def nonPackagePatterns : List (List (List CPat)) :=
  [ [lA "Syntax error"],
    [lA "Missing", lA "begin\x7bdocument\x7d"],
    [lA "Extra", [CPat.ch '\x7d']],
    [lA "Missing", [CPat.ch '$']],
    [lA "Misplaced", [CPat.ch '&']],
    [lA "Missing control sequence inserted"],
    [lA "Paragraph ended before", lA "was complete"],
    [lA "Use of", lA "doesn\x27t match its definition"],
    [lA "Illegal", lA "character"],
    [lA "Missing number"],
    [lA "Dimension too large"] ]

/-- `TeXParser::is_package_related_error`: the non-package pattern list is
checked first (any match forces `false`); otherwise the package-related list
decides; if nothing matches the result is `false`. -/
def is_package_related_error (error_output : String) : Bool :=
  if nonPackagePatterns.any (fun p => reMatch p error_output.toList) then false
  else if packageRelatedPatterns.any (fun p => reMatch p error_output.toList) then true
  else false

/-! ## The capture engine for the extraction regexes

Every extraction regex of the source has the shape
`lit (class*)? lit … (capture-class{+,*}) … lit`, possibly with the optional
bracket group `(?:\[[^\]]*\])?`.  `Piece` encodes exactly these shapes and
`matchPieces` implements greedy matching with backtracking (the
leftmost-first semantics of the `regex` crate), threading through the single
capture group. -/

inductive Piece where
  | atom (a : List CPat)
  | star (c : CPat)
  | cap (c : CPat) (atLeastOne : Bool)
  | optBracket
deriving DecidableEq

/-- Greedy `c*`: consume as many `c`-characters as possible, backtracking
one character at a time into the continuation `k`. -/
def starGo (c : CPat) (k : List Char → Option (List Char × List Char)) :
    List Char → Option (List Char × List Char)
  | [] => k []
  | x :: t => if cpMatch c x then (starGo c k t) <|> k (x :: t) else k (x :: t)

/-- Greedy capturing `c*`: like `starGo` but the continuation also receives
the characters consumed so far (the capture). -/
def capGo (c : CPat) (k : List Char → List Char → Option (List Char × List Char))
    (acc : List Char) : List Char → Option (List Char × List Char)
  | [] => k acc []
  | x :: t =>
    if cpMatch c x then (capGo c k (acc ++ [x]) t) <|> k acc (x :: t)
    else k acc (x :: t)

/-- Match a piece list at the start of `s`; on success return the capture
(empty if the pattern has no capture group, which does not occur for the
patterns of the source) and the suffix after the whole match. -/
def matchPieces : List Piece → Option (List Char) → List Char → Option (List Char × List Char)
  | [], capv, s => some (capv.getD [], s)
  | .atom a :: rest, capv, s =>
    (match atomAt a s with
     | some t => matchPieces rest capv t
     | none => none)
  | .star c :: rest, capv, s => starGo c (fun t => matchPieces rest capv t) s
  | .cap c one :: rest, _, s =>
    if one then
      match s with
      | [] => none
      | x :: t =>
        if cpMatch c x then capGo c (fun acc r => matchPieces rest (some acc) r) [x] t
        else none
    else capGo c (fun acc r => matchPieces rest (some acc) r) [] s
  | .optBracket :: rest, capv, s =>
    (match atomAt [CPat.ch '['] s with
     | some t =>
       starGo (CPat.noneOf [']'])
         (fun t2 =>
           match atomAt [CPat.ch ']'] t2 with
           | some t3 => matchPieces rest capv t3
           | none => none) t
     | none => none)
    <|> matchPieces rest capv s

/-- Leftmost search: try `matchPieces` at every position of `s` in order. -/
def searchCapture (ps : List Piece) : List Char → Option (List Char × List Char)
  | [] => matchPieces ps none []
  | c :: t => (matchPieces ps none (c :: t)) <|> searchCapture ps t

/-- `captures_iter`: iterate non-overlapping leftmost matches, collecting the
capture of each.  Every pattern of the source contains a non-empty literal,
so each match consumes at least one character and the fuel `s.length + 1`
used by `capturesOn` covers every iteration. -/
def allCaptures : Nat → List Piece → List Char → List (List Char)
  | 0, _, _ => []
  | fuel + 1, ps, s =>
    match searchCapture ps s with
    | some (capv, rest) => capv :: allCaptures fuel ps rest
    | none => []

def capturesOn (ps : List Piece) (s : List Char) : List (List Char) :=
  allCaptures (s.length + 1) ps s

/-! ## Line splitting, trimming and substring search -/

/-- Strip one trailing `'\r'` (`str::lines` strips it from `\r\n` endings). -/
def stripCR (l : List Char) : List Char :=
  if l.getLast? = some '\r' then l.dropLast else l

def linesGo : List Char → List Char → List (List Char)
  | [], acc => if acc.isEmpty then [] else [acc.reverse]
  | c :: rest, acc =>
    if c == '\n' then stripCR acc.reverse :: linesGo rest []
    else linesGo rest (c :: acc)

/-- Model of Rust `str::lines`: split at `'\n'`, strip a `'\r'` left at the
end of a split-off line, and do not produce a final empty line for a
trailing line terminator. -/
def rustLinesCh (s : List Char) : List (List Char) := linesGo s []

/-- Model of `str::trim` (ASCII whitespace; the names handled are ASCII). -/
def trimCh (l : List Char) : List Char :=
  ((l.dropWhile isWS).reverse.dropWhile isWS).reverse

def startsWithSeq : List Char → List Char → Bool
  | [], _ => true
  | _ :: _, [] => false
  | a :: xs, b :: ys => a == b && startsWithSeq xs ys

/-- Substring search, modelling `str::contains` and `Regex::is_match` of a
pattern that is a plain literal. -/
def containsSeq (needle : List Char) : List Char → Bool
  | [] => needle.isEmpty
  | c :: t => startsWithSeq needle (c :: t) || containsSeq needle t

/-- Lexicographic order on character lists; on the ASCII strings produced
here it agrees with the byte-wise `Ord` of Rust `String` used by
`Vec::sort`. -/
def lexLe : List Char → List Char → Bool
  | [], _ => true
  | _ :: _, [] => false
  | a :: xs, b :: ys => if a = b then lexLe xs ys else decide (a < b)

def insertLe {α : Type} (le : α → α → Bool) (x : α) : List α → List α
  | [] => [x]
  | y :: ys => if le y x then y :: insertLe le x ys else x :: y :: ys

/-- Stable insertion sort.  Both `Vec::sort` and `Vec::sort_by` in Rust are
stable, so for a total comparator they produce exactly this list. -/
def stableSort {α : Type} (le : α → α → Bool) (l : List α) : List α :=
  l.foldl (fun acc x => insertLe le x acc) []

/-! ## `TeXParser::parse_compilation_errors` (src/tex_parser.rs lines 460-511) -/

/-- The eight `error_patterns` of the source, in source order. -/
def errorPatterns : List (List Piece) :=
  [ [.atom (lA "File `"), .cap (.noneOf ['\x27']) true, .atom (lA ".sty\x27 not found")],
    [.atom (lA "File `"), .cap (.noneOf ['\x27']) true, .atom (lA ".cls\x27 not found")],
    [.atom (lA "Unknown option `"), .star (.noneOf ['\x27']),
     .atom (lA "\x27 for package `"), .cap (.noneOf ['\x27']) false, .atom (lA "\x27")],
    [.atom (lA "Package "), .cap (.notSpaceOr []) true, .atom (lA " Error:")],
    [.atom (lA "\\usepackage\x7b"), .cap (.noneOf ['\x7d']) true, .atom (lA "\x7d")],
    [.cap (.notSpaceOr ['/', '\\']) true, .atom (lA ".sty not found")],
    [.atom (lA "Can\x27t find file `"), .cap (.noneOf ['\x27']) true, .atom (lA ".sty\x27")],
    [.atom (lA "I can\x27t find file `"), .cap (.noneOf ['\x27']) true, .atom (lA ".sty\x27")] ]

/-- The `command_to_package` table of
`extract_package_from_undefined_command`; every regex in it is a literal, so
matching is substring containment. -/
def commandToPackage : List (List Char × String) :=
  [ ("\\includegraphics".toList, "graphicx"),
    ("\\url".toList, "url"),
    ("\\href".toList, "hyperref"),
    ("\\textcolor".toList, "xcolor"),
    ("\\colorbox".toList, "xcolor"),
    ("\\fcolorbox".toList, "xcolor"),
    ("\\begin\x7bfigure\x7d".toList, "graphicx"),
    ("\\begin\x7btable\x7d".toList, "array"),
    ("\\toprule".toList, "booktabs"),
    ("\\midrule".toList, "booktabs"),
    ("\\bottomrule".toList, "booktabs"),
    ("\\multicolumn".toList, "array"),
    ("\\multirow".toList, "multirow"),
    ("\\footnotesize".toList, "geometry") ]

def extract_package_from_undefined_command (error_line : List Char) : Option String :=
  commandToPackage.findSome?
    (fun pc => if containsSeq pc.1 error_line then some pc.2 else none)

/-- `TeXParser::parse_compilation_errors`: run every error pattern over the
whole output, collect trimmed non-empty captures, add the
undefined-control-sequence hints, deduplicate (the source uses a `HashSet`)
and sort. -/
def parse_compilation_errors (error_output : String) : List String :=
  let s := error_output.toList
  let capNames := (errorPatterns.map (fun ps => (capturesOn ps s).map trimCh)).flatten
  let capNames := capNames.filter (fun n => !n.isEmpty)
  let hintNames := (rustLinesCh s).filterMap (fun line =>
    if containsSeq ("Undefined control sequence".toList) line then
      (extract_package_from_undefined_command line).map String.toList
    else none)
  let uniq := (capNames ++ hintNames).foldl
    (fun acc n => if acc.contains n then acc else acc ++ [n]) []
  (stableSort lexLe uniq).map String.mk

/-! ## The static dependency parser (src/tex_parser.rs lines 39-200) -/

inductive DependencyType where
  | UsePackage
  | RequirePackage
  | DocumentClass
  | LoadClass
  | Input
  | Include
  | Bibliography
  | BibliographyStyle
deriving DecidableEq

structure TeXDependency where
  package_name : String
  dependency_type : DependencyType
  line_number : Nat
  context : String
deriving DecidableEq

/-- `\\usepackage(?:\[[^\]]*\])?\{([^}]+)\}` -/
def usepackagePat : List Piece :=
  [.atom (lA "\\usepackage"), .optBracket, .atom [.ch '\x7b'],
   .cap (.noneOf ['\x7d']) true, .atom [.ch '\x7d']]

/-- `\\RequirePackage(?:\[[^\]]*\])?\{([^}]+)\}` -/
def requirepackagePat : List Piece :=
  [.atom (lA "\\RequirePackage"), .optBracket, .atom [.ch '\x7b'],
   .cap (.noneOf ['\x7d']) true, .atom [.ch '\x7d']]

/-- `\\documentclass(?:\[[^\]]*\])?\{([^}]+)\}` -/
def documentclassPat : List Piece :=
  [.atom (lA "\\documentclass"), .optBracket, .atom [.ch '\x7b'],
   .cap (.noneOf ['\x7d']) true, .atom [.ch '\x7d']]

/-- `\\LoadClass(?:\[[^\]]*\])?\{([^}]+)\}` -/
def loadclassPat : List Piece :=
  [.atom (lA "\\LoadClass"), .optBracket, .atom [.ch '\x7b'],
   .cap (.noneOf ['\x7d']) true, .atom [.ch '\x7d']]

/-- `\\input\{([^}]+)\}` -/
def inputPat : List Piece :=
  [.atom (lA "\\input\x7b"), .cap (.noneOf ['\x7d']) true, .atom [.ch '\x7d']]

/-- `\\include\{([^}]+)\}` -/
def includePat : List Piece :=
  [.atom (lA "\\include\x7b"), .cap (.noneOf ['\x7d']) true, .atom [.ch '\x7d']]

/-- `\\bibliography\{([^}]+)\}` -/
def bibliographyPat : List Piece :=
  [.atom (lA "\\bibliography\x7b"), .cap (.noneOf ['\x7d']) true, .atom [.ch '\x7d']]

/-- `\\bibliographystyle\{([^}]+)\}` -/
def bibliographystylePat : List Piece :=
  [.atom (lA "\\bibliographystyle\x7b"), .cap (.noneOf ['\x7d']) true, .atom [.ch '\x7d']]

def splitCommaGo : List Char → List Char → List (List Char)
  | [], acc => [acc.reverse]
  | c :: t, acc =>
    if c == ',' then acc.reverse :: splitCommaGo t [] else splitCommaGo t (c :: acc)

/-- `TeXParser::split_package_list`: split on `','`, trim each entry, drop
empties. -/
def split_package_list (packages : List Char) : List (List Char) :=
  ((splitCommaGo packages []).map trimCh).filter (fun s => !s.isEmpty)

/-- `TeXParser::extract_dependencies`: the eight extractors applied to one
(comment-stripped) line, in source order; each record carries the given
line number and the trimmed line as context. -/
def extract_dependencies (line : List Char) (line_number : Nat) : List TeXDependency :=
  let ctx := String.mk (trimCh line)
  (((capturesOn usepackagePat line).map split_package_list).flatten.map
    (fun p => ⟨String.mk p, DependencyType.UsePackage, line_number, ctx⟩))
  ++ (((capturesOn requirepackagePat line).map split_package_list).flatten.map
    (fun p => ⟨String.mk p, DependencyType.RequirePackage, line_number, ctx⟩))
  ++ ((capturesOn documentclassPat line).map
    (fun c => ⟨String.mk (trimCh c), DependencyType.DocumentClass, line_number, ctx⟩))
  ++ ((capturesOn loadclassPat line).map
    (fun c => ⟨String.mk (trimCh c), DependencyType.LoadClass, line_number, ctx⟩))
  ++ ((capturesOn inputPat line).map
    (fun c => ⟨String.mk (trimCh c), DependencyType.Input, line_number, ctx⟩))
  ++ ((capturesOn includePat line).map
    (fun c => ⟨String.mk (trimCh c), DependencyType.Include, line_number, ctx⟩))
  ++ (((capturesOn bibliographyPat line).map split_package_list).flatten.map
    (fun p => ⟨String.mk p, DependencyType.Bibliography, line_number, ctx⟩))
  ++ ((capturesOn bibliographystylePat line).map
    (fun c => ⟨String.mk (trimCh c), DependencyType.BibliographyStyle, line_number, ctx⟩))

/-- The UTF-8 byte offset at which the character with index `i` of `line`
starts (`Char.utf8Size` is the UTF-8 encoding length of one character).
`str::find` returns this offset for the `i`-th character. -/
def byteIdx (line : List Char) (i : Nat) : Nat :=
  ((line.take i).map Char.utf8Size).sum

/-- The comment-stripping step of `parse_content` (lines 74-87).
`comment_pos := line.find('%')` is the BYTE offset of the first `'%'`
(`byteIdx line pos` for its character index `pos`).  The escape check then
evaluates `line.chars().nth(comment_pos - 1)` — a CHARACTER index — so the
source mixes the two index spaces: the character inspected is the one at
character position `byte offset - 1`, which is the character immediately
before the `'%'` only when everything before the `'%'` is ASCII.  If that
mixed-index lookup yields `'\\'` the whole line is kept; otherwise the line
is truncated to `&line[..comment_pos]`, which is exactly the characters
before the `'%'` (the offset is a character boundary), and the line is
skipped (`none`) when that prefix trims to nothing. -/
def effectiveLine (line : List Char) : Option (List Char) :=
  match line.findIdx? (fun c => c == '%') with
  | some pos =>
    if byteIdx line pos > 0 && line.get? (byteIdx line pos - 1) == some '\\' then
      some line
    else
      let beforeComment := line.take pos
      if (trimCh beforeComment).isEmpty then none else some beforeComment
  | none => some line

/-- Dependencies contributed by one source line. -/
def lineDeps (line : List Char) (line_number : Nat) : List TeXDependency :=
  match effectiveLine line with
  | none => []
  | some el => extract_dependencies el line_number

def parseLines : Nat → List (List Char) → List TeXDependency
  | _, [] => []
  | n, l :: ls => lineDeps l (n + 1) ++ parseLines (n + 1) ls

def parseContentList (content : String) : List TeXDependency :=
  parseLines 0 (rustLinesCh content.toList)

/-- `TeXParser::parse_content`: enumerate the lines (1-indexed), strip
comments, extract dependencies.  The Rust body contains no fallible
operation, so it always returns `Ok`. -/
def parse_content (content : String) : Except String (List TeXDependency) :=
  .ok (parseContentList content)

/-! ## The compilation-probe detection loop (src/tex_parser.rs lines 326-457)

A `CompileStep` is one entry of the resolved compile chain together with the
outcome of running it: `outcome = .error e` models `Command::output()`
failing to launch (the `?` at line 355), `outcome = .ok (success, out)`
models a launched process with exit status `success` and combined
stdout/stderr text `out` (the source concatenates them with a newline at
line 361; `out` is that combined text). -/

instance {ε α : Type} [DecidableEq ε] [DecidableEq α] : DecidableEq (Except ε α) :=
  fun a b =>
  match a, b with
  | .error e, .error f =>
    decidable_of_iff (e = f) ⟨by rintro rfl; rfl, fun hh => by injection hh⟩
  | .ok x, .ok y =>
    decidable_of_iff (x = y) ⟨by rintro rfl; rfl, fun hh => by injection hh⟩
  | .error _, .ok _ => isFalse (fun hh => by injection hh)
  | .ok _, .error _ => isFalse (fun hh => by injection hh)

structure CompileStep where
  args : List String
  outcome : Except String (Bool × String)
deriving DecidableEq

/-- The step loop of `detect_missing_packages_by_compilation_once`
(lines 342-393).  `missing` is the accumulator `missing_packages`. -/
def onceGo : List CompileStep → Nat → List String → Except String (List String)
  | [], _, missing => .ok missing
  | step :: rest, step_idx, missing =>
    if step.args.isEmpty then onceGo rest (step_idx + 1) missing
    else
      match step.outcome with
      | .error e => .error e
      | .ok (success, out) =>
        if success then onceGo rest (step_idx + 1) missing
        else
          let step_missing := parse_compilation_errors out
          if step_missing.isEmpty then
            if is_package_related_error out then .ok missing
            else
              .error ("Compilation failed with non-package-related error in step "
                ++ toString (step_idx + 1) ++ ":\n" ++ out)
          else
            .ok (step_missing.foldl
              (fun m p => if m.contains p then m else m ++ [p]) missing)

/-- `detect_missing_packages_by_compilation_once`: error out on an empty
resolved chain, otherwise run the step loop. -/
def detectOnce (chain : List CompileStep) : Except String (List String) :=
  if chain.isEmpty then .error "Empty resolved compile command chain"
  else onceGo chain 0 []

/-- The merge step of the outer loop (lines 426-433): push each newly seen
package, recording whether anything new appeared. -/
def mergePackages (acc : List String) (pkgs : List String) : List String × Bool :=
  pkgs.foldl (fun af p => if af.1.contains p then af else (af.1 ++ [p], true))
    (acc, false)

/-- The `for iteration in 1..=max_iterations` loop of
`detect_missing_packages_by_compilation` (lines 410-450).  `once i` is the
result of the `i`-th call to the single-shot detection (the call's outcome
depends on the external package installations performed between iterations,
so it is passed as an iteration-indexed oracle).  The second component
counts how many times the probe was invoked. -/
def detectGo (once : Nat → Except String (List String)) :
    List Nat → List String → Nat → Except String (List String) × Nat
  | [], acc, calls => (.ok acc, calls)
  | i :: rest, acc, calls =>
    match once i with
    | .error e => (.error e, calls + 1)
    | .ok missing =>
      if missing.isEmpty then (.ok acc, calls + 1)
      else
        let merged := mergePackages acc missing
        if merged.2 then detectGo once rest merged.1 (calls + 1)
        else (.ok merged.1, calls + 1)

/-- `detect_missing_packages_by_compilation` together with the number of
probe invocations it performs; `max_iterations = 10`. -/
def detectFull (once : Nat → Except String (List String)) :
    Except String (List String) × Nat :=
  detectGo once (List.range' 1 10) [] 0

def detect_missing_packages_by_compilation
    (once : Nat → Except String (List String)) : Except String (List String) :=
  (detectFull once).1

/-! ## The dependency graph resolver (src/resolver.rs) -/

structure Dependency where
  name : String
  version_constraint : String
  optional : Bool
deriving DecidableEq

structure ResolvedPackage where
  name : String
  version : String
  dependencies : List Dependency
deriving DecidableEq

/-- `DependencyResolver` with its `HashMap<String, Vec<ResolvedPackage>>`
modelled as an association list with unique keys (iteration order of the
model is insertion order; the claims proved below do not depend on the
iteration order of the Rust `HashMap`, see `sort_by_dependencies`). -/
structure DependencyResolver where
  packages : List (String × List ResolvedPackage)
deriving DecidableEq

def DependencyResolver.new : DependencyResolver := ⟨[]⟩

/-- `DependencyResolver::add_package`:
`entry(name).or_insert_with(Vec::new).push(package)`. -/
def add_package (r : DependencyResolver) (p : ResolvedPackage) : DependencyResolver :=
  if (r.packages.find? (fun kv => kv.1 == p.name)).isSome then
    ⟨r.packages.map (fun kv => if kv.1 == p.name then (kv.1, kv.2 ++ [p]) else kv)⟩
  else ⟨r.packages ++ [(p.name, [p])]⟩

def lookupPkgs (r : DependencyResolver) (name : String) : Option (List ResolvedPackage) :=
  (r.packages.find? (fun kv => kv.1 == name)).map (·.2)

/-- `DependencyResolver::find_best_version` (lines 76-85):
`versions.last().cloned()`, `None` when the name has no catalog entry.  The
Rust function wraps this in `Ok`; no error path exists, so the `Result`
layer is dropped here and restored in `resolve`. -/
def find_best_version (r : DependencyResolver) (name : String) : Option ResolvedPackage :=
  (lookupPkgs r name).bind (fun versions => versions.getLast?)

def keyNames (r : DependencyResolver) : List String := r.packages.map (·.1)

theorem mem_of_getLast_opt {α : Type} {l : List α} {a : α}
    (h : l.getLast? = some a) : a ∈ l := by
  induction l with
  | nil => simp at h
  | cons x t ih =>
    cases t with
    | nil => simp_all
    | cons y u =>
      rw [List.getLast?_cons_cons] at h
      exact List.mem_cons_of_mem x (ih h)

/-- A package returned by `find_best_version` comes from a catalog entry
whose key is the requested name. -/
theorem fbv_sound (r : DependencyResolver) (n : String) (pkg : ResolvedPackage)
    (h : find_best_version r n = some pkg) :
    ∃ kv ∈ r.packages, kv.1 = n ∧ pkg ∈ kv.2 := by
  unfold find_best_version lookupPkgs at h
  cases hf : r.packages.find? (fun kv => kv.1 == n) with
  | none => simp [hf] at h
  | some kv =>
    have hm := List.mem_of_find?_eq_some hf
    have hp := List.find?_some hf
    simp at hp
    refine ⟨kv, hm, hp, ?_⟩
    simp [hf] at h
    exact mem_of_getLast_opt h

theorem mem_keys_of_fbv (r : DependencyResolver) (n : String) (pkg : ResolvedPackage)
    (h : find_best_version r n = some pkg) : n ∈ keyNames r := by
  obtain ⟨kv, hkv, hk, _⟩ := fbv_sound r n pkg h
  exact List.mem_map.mpr ⟨kv, hkv, hk⟩

theorem filter_len_le {α : Type} (p q : α → Bool) (h : ∀ x, p x = true → q x = true) :
    ∀ l : List α, (l.filter p).length ≤ (l.filter q).length := by
  intro l
  induction l with
  | nil => simp
  | cons x t ih =>
    rw [List.filter_cons, List.filter_cons]
    cases hp : p x with
    | true => simp [h x hp]; omega
    | false =>
      cases hq : q x with
      | true => simp; omega
      | false => simpa using ih

theorem filter_len_lt {α : Type} (p q : α → Bool) (h : ∀ x, p x = true → q x = true)
    (a : α) (hpa : p a = false) (hqa : q a = true) :
    ∀ l : List α, a ∈ l → (l.filter p).length < (l.filter q).length := by
  intro l hm
  induction l with
  | nil => simp at hm
  | cons x t ih =>
    rw [List.filter_cons, List.filter_cons]
    rcases List.mem_cons.mp hm with rfl | hmt
    · rw [hpa, hqa]
      simp
      calc (t.filter p).length ≤ (t.filter q).length := filter_len_le p q h t
        _ < (t.filter q).length + 1 := Nat.lt_succ_self _
    · cases hp : p x with
      | true =>
        rw [h x hp]
        simpa using ih hmt
      | false =>
        cases hq : q x with
        | true => simp; have := ih hmt; omega
        | false => simpa using ih hmt

theorem contains_mono (n : String) (visited : List String) :
    ∀ x, (!(n :: visited).contains x) = true → (!visited.contains x) = true := by
  intro x hx
  simp at hx ⊢
  exact fun h => hx.2 h

/-- The `while let Some(package_name) = queue.pop_front()` loop of
`DependencyResolver::resolve` (lines 50-68): skip visited names, look up the
best version, enqueue its non-optional unvisited dependencies, collect the
package.  Termination: processing a name with a catalog entry strictly
shrinks the set of unvisited catalog keys; any other step keeps it and
shortens the queue. -/
def resolveLoop (r : DependencyResolver) :
    List String → List String → List ResolvedPackage → List ResolvedPackage
  | [], _, resolved => resolved
  | n :: rest, visited, resolved =>
    if visited.contains n then
      resolveLoop r rest visited resolved
    else
      match h : find_best_version r n with
      | some pkg =>
        resolveLoop r
          (rest ++ ((pkg.dependencies.filter
              (fun d => !d.optional && !(n :: visited).contains d.name)).map (·.name)))
          (n :: visited) (resolved ++ [pkg])
      | none => resolveLoop r rest (n :: visited) resolved
termination_by queue visited _ =>
  (((keyNames r).filter (fun k => !visited.contains k)).length, queue.length)
decreasing_by
  · apply Prod.Lex.right
    simp
  · apply Prod.Lex.left
    apply filter_len_lt _ _ (contains_mono n visited) n
    · simp
    · rename_i hv
      simpa using hv
    · exact mem_keys_of_fbv r n pkg h
  · rename_i hv
    by_cases hk : n ∈ keyNames r
    · apply Prod.Lex.left
      apply filter_len_lt _ _ (contains_mono n visited) n
      · simp
      · simpa using hv
      · exact hk
    · have hEq : (keyNames r).filter (fun k => !(n :: visited).contains k)
          = (keyNames r).filter (fun k => !visited.contains k) := by
        apply List.filter_congr
        intro x hx
        have hxn : x ≠ n := fun he => hk (he ▸ hx)
        simp [hxn]
      rw [hEq]
      apply Prod.Lex.right
      simp

/-! ### `DependencyResolver::sort_by_dependencies` (lines 87-146) -/

def mapGet? {α : Type} (m : List (String × α)) (k : String) : Option α :=
  (m.find? (fun kv => kv.1 == k)).map (·.2)

/-- `HashMap::insert` (replace an existing binding, else append). -/
def mapInsert {α : Type} (m : List (String × α)) (k : String) (v : α) :
    List (String × α) :=
  if (m.find? (fun kv => kv.1 == k)).isSome then
    m.map (fun kv => if kv.1 == k then (kv.1, v) else kv)
  else m ++ [(k, v)]

/-- `HashMap::get_mut` followed by an update; a no-op when the key is
absent. -/
def mapUpd {α : Type} (m : List (String × α)) (k : String) (f : α → α) :
    List (String × α) :=
  m.map (fun kv => if kv.1 == k then (kv.1, f kv.2) else kv)

/-- `in_degree.entry(name).or_insert(0) += 1`. -/
def bumpDegree (m : List (String × Nat)) (k : String) : List (String × Nat) :=
  if (mapGet? m k).isSome then mapUpd m k (· + 1) else m ++ [(k, 1)]

/-- The two graph-building loops (lines 92-105): first give every package a
zero in-degree and an empty dependents list; then, for every dependency of
every package, push the package onto the dependents of the dependency (only
when the dependency is itself a node) and unconditionally bump the
package's own in-degree. -/
def buildMaps (packages : List ResolvedPackage) :
    List (String × List String) × List (String × Nat) :=
  let init := packages.foldl
    (fun gd p => (mapInsert gd.1 p.name [], mapInsert gd.2 p.name 0))
    (([], []) : List (String × List String) × List (String × Nat))
  packages.foldl
    (fun gd p => p.dependencies.foldl
      (fun gd2 dep =>
        (mapUpd gd2.1 dep.name (fun ds => ds ++ [p.name]), bumpDegree gd2.2 p.name))
      gd)
    init

def USIZEMAX : Nat := 18446744073709551615

/-- Kahn's `while let Some(package_name) = queue.pop_front()` loop
(lines 117-130).  The `usize` decrement `*degree -= 1` is modelled with the
wrap-around of release builds (`0 - 1 = usize::MAX`); an underflow never
occurs on degree maps produced by `buildMaps`.  The fuel passed by
`kahnOrder` covers every such execution: each iteration pops one queue
element and every enqueue consumes one unit of the degree sum. -/
def kahnLoop :
    Nat → List (String × List String) → List String → List (String × Nat) →
    List String → List String
  | 0, _, _, _, sorted => sorted
  | fuel + 1, graph, queue, deg, sorted =>
    match queue with
    | [] => sorted
    | n :: rest =>
      let dependents := (mapGet? graph n).getD []
      let step := dependents.foldl
        (fun dn dep =>
          match mapGet? dn.1 dep with
          | some k =>
            let newv := if k == 0 then USIZEMAX else k - 1
            (mapUpd dn.1 dep (fun _ => newv), if newv == 0 then dn.2 ++ [dep] else dn.2)
          | none => dn)
        (deg, ([] : List String))
      kahnLoop fuel graph (rest ++ step.2) step.1 (sorted ++ [n])

/-- The `sorted` vector produced by the topological sort: initial queue =
all names of in-degree zero (in the insertion order of the model's map,
standing in for the `HashMap` iteration order of the source — the claims
below only use which names are members of the result), then Kahn's loop. -/
def kahnOrder (packages : List ResolvedPackage) : List String :=
  let gd := buildMaps packages
  let q0 := (gd.2.filter (fun kv => kv.2 == 0)).map (·.1)
  kahnLoop (q0.length + (gd.2.map (·.2)).sum + 1) gd.1 q0 gd.2 []

/-- `order_map.get(&name).unwrap_or(&usize::MAX)` (lines 133-143). -/
def rankIn (sorted : List String) (name : String) : Nat :=
  match sorted.findIdx? (fun s => s == name) with
  | some i => i
  | none => USIZEMAX

/-- `DependencyResolver::sort_by_dependencies`: reorder `packages` by the
rank of each name in the topological order, names without a rank going
last (`usize::MAX`).  `Vec::sort_by` is a stable ascending sort, which for
a total comparator produces exactly the stable insertion sort.  The Rust
function returns `Ok(())` unconditionally and mutates in place; the model
returns the reordered list. -/
def sort_by_dependencies (packages : List ResolvedPackage) : List ResolvedPackage :=
  let sorted := kahnOrder packages
  stableSort (fun a b => decide (rankIn sorted a.name ≤ rankIn sorted b.name)) packages

def resolveList (r : DependencyResolver) (root_packages : List String) :
    List ResolvedPackage :=
  sort_by_dependencies (resolveLoop r root_packages [] [])

/-- `DependencyResolver::resolve` (lines 40-74): breadth-first closure from
the roots, then dependency-order sort.  No error path exists in the body
(`find_best_version` and `sort_by_dependencies` always return `Ok`), so the
result is always `Ok`. -/
def resolve (r : DependencyResolver) (root_packages : List String) :
    Except String (List ResolvedPackage) :=
  .ok (resolveList r root_packages)

/-! ### `DependencyResolver::check_conflicts` (lines 148-166) -/

def conflictMsg (name existing incoming : String) : String :=
  "Version conflict for " ++ name ++ ": " ++ existing ++ " vs " ++ incoming

/-- The single pass of `check_conflicts`: remember the first version seen
for each name; report a conflict whenever a later entry for a remembered
name carries a different version (the remembered version is never
updated). -/
def checkConflictsGo : List ResolvedPackage → List (String × String) → List String
  | [], _ => []
  | p :: rest, seen =>
    match mapGet? seen p.name with
    | some existing =>
      if existing ≠ p.version then
        conflictMsg p.name existing p.version :: checkConflictsGo rest seen
      else checkConflictsGo rest seen
    | none => checkConflictsGo rest (seen ++ [(p.name, p.version)])

def check_conflicts (packages : List ResolvedPackage) : List String :=
  checkConflictsGo packages []

/-- The first version recorded for `name` while scanning `packages`. -/
def firstVersion (packages : List ResolvedPackage) (name : String) : Option String :=
  (packages.find? (fun p => p.name == name)).map (·.version)

/-! ## `compile_command` (src/commands.rs lines 863-997)

The working-directory discipline of the compile chain.  The process state
relevant to claim C5 is the current working directory; the function is
embedded as a state transformer returning the `Result` together with the
final working directory.  `CompileEnv` carries the outcomes of the
environment interactions the source performs, in source order:
configuration loading (line 879, behind the `tpmgr.toml` existence check —
a missing file takes the infallible `Config::new()` path and is modelled as
`.ok`), `PackageManager::new` (line 888), `resolve_variables` (line 919),
the per-step `Command::status()` outcomes (lines 956-972, `none` = launch
failure, `some b` = exit with success `b`), the `auto_clean` flag and the
`clean_intermediate_files` outcome (lines 979-990).  The `TEXINPUTS`
manipulation does not touch the working directory and is elided. -/

structure CompileEnv where
  projectRoot : String
  loadOutcome : Except String Unit
  pmNewOutcome : Except String Unit
  resolveOutcome : Except String (List (List String))
  stepOutcomes : List (Option Bool)
  autoClean : Bool
  cleanOutcome : Except String Unit
deriving DecidableEq

/-- The step loop (lines 934-973): `success` stays `true` until a step
fails to launch or exits unsuccessfully, which breaks the loop. -/
def runStepsOk : List (Option Bool) → Bool
  | [] => true
  | o :: rest =>
    match o with
    | some true => runStepsOk rest
    | _ => false

/-- `compile_command` as a working-directory transformer: the directory is
set to the project root at line 875 and set back to the original directory
only at line 994; every `?` propagation and the early `return Ok(())` at
line 923 (empty resolved chain) exit without passing line 994. -/
def compile_command (env : CompileEnv) (original_dir : String) (clean : Bool) :
    Except String Unit × String :=
  let cwd := env.projectRoot
  match env.loadOutcome with
  | .error e => (.error e, cwd)
  | .ok _ =>
    match env.pmNewOutcome with
    | .error e => (.error e, cwd)
    | .ok _ =>
      match env.resolveOutcome with
      | .error e => (.error e, cwd)
      | .ok cmds =>
        if cmds.isEmpty then (.ok (), cwd)
        else
          let success := runStepsOk env.stepOutcomes
          if success then
            if clean || env.autoClean then
              match env.cleanOutcome with
              | .error e => (.error e, cwd)
              | .ok _ => (.ok (), original_dir)
            else (.ok (), original_dir)
          else
            if clean then
              match env.cleanOutcome with
              | .error e => (.error e, cwd)
              | .ok _ => (.ok (), original_dir)
            else (.ok (), original_dir)

/-! ## Claim C7 and C8: the error classifier -/

theorem seekAny_append (a : List CPat) (k : List Char → Bool) (u s : List Char)
    (h : seekAny a k s = true) : seekAny a k (u ++ s) = true := by
  induction u with
  | nil => simpa using h
  | cons c u' ih =>
    rw [List.cons_append, seekAny, ih]
    simp

theorem missing_dollar_matches (v : List Char) :
    reMatch [lA "Missing", [CPat.ch '$']] ("Missing $ inserted".toList ++ v) = true := by
  have hcore : "Missing $ inserted".toList
      = ['M', 'i', 's', 's', 'i', 'n', 'g', ' ', '$', ' ',
         'i', 'n', 's', 'e', 'r', 't', 'e', 'd'] := rfl
  have hlit : lA "Missing" = [.ch 'M', .ch 'i', .ch 's', .ch 's', .ch 'i', .ch 'n', .ch 'g'] := rfl
  rw [hcore, hlit, reMatch]
  simp [seekAny, seekNoNL, chainNoNL, atomAt, cpMatch]

theorem isPkgRel_eq (out : String) :
    is_package_related_error out
      = (!(nonPackagePatterns.any (fun p => reMatch p out.toList))
          && packageRelatedPatterns.any (fun p => reMatch p out.toList)) := by
  unfold is_package_related_error
  cases h1 : nonPackagePatterns.any (fun p => reMatch p out.toList) with
  | true => simp
  | false =>
    cases h2 : packageRelatedPatterns.any (fun p => reMatch p out.toList) with
    | true => simp
    | false => simp

/-- Claim C7: the package-relatedness verdict checks the non-package pattern
list first — any match there forces `false` (in particular any output
containing `Missing $ inserted` is classified `false`); otherwise the
verdict is `true` exactly when some package-indicative pattern matches, and
`false` when neither list matches. -/
theorem c7_relatedness_order (out : String) :
    ((∃ p ∈ nonPackagePatterns, reMatch p out.toList = true) →
        is_package_related_error out = false)
    ∧ ((∀ p ∈ nonPackagePatterns, reMatch p out.toList = false) →
        (is_package_related_error out = true
          ↔ ∃ p ∈ packageRelatedPatterns, reMatch p out.toList = true))
    ∧ (∀ u v : List Char, out.toList = u ++ "Missing $ inserted".toList ++ v →
        is_package_related_error out = false) := by
  refine ⟨?_, ?_, ?_⟩
  · intro h
    obtain ⟨p, hp, hm⟩ := h
    have hany : nonPackagePatterns.any (fun p => reMatch p out.toList) = true :=
      List.any_eq_true.mpr ⟨p, hp, hm⟩
    rw [isPkgRel_eq, hany]
    rfl
  · intro h
    have h2 : ∀ q ∈ nonPackagePatterns, reMatch q out.data = false := h
    have hany : nonPackagePatterns.any (fun p => reMatch p out.toList) = false := by
      rw [List.any_eq_false]
      intro p hp
      simp [h2 p hp]
    rw [isPkgRel_eq, hany]
    simp [List.any_eq_true]
  · intro u v hout
    have hmem : [lA "Missing", [CPat.ch '$']] ∈ nonPackagePatterns := by
      simp [nonPackagePatterns]
    have hmatch : reMatch [lA "Missing", [CPat.ch '$']] out.toList = true := by
      rw [show out.toList = u ++ ("Missing $ inserted".toList ++ v) by
            rw [hout, List.append_assoc]]
      rw [reMatch]
      refine seekAny_append _ _ u _ ?_
      have := missing_dollar_matches v
      rwa [reMatch] at this
    have hany : nonPackagePatterns.any (fun p => reMatch p out.toList) = true :=
      List.any_eq_true.mpr ⟨_, hmem, hmatch⟩
    rw [isPkgRel_eq, hany]
    rfl

theorem c7_witness : is_package_related_error "le Missing $ inserted" = false :=
  (c7_relatedness_order "le Missing $ inserted").2.2 ("le ".toList) [] (by decide)

/-- Claim C8: on `! LaTeX Error: File `minted.sty' not found.` the extractor
returns exactly `["minted"]` and the relatedness verdict is `true`. -/
theorem c8_minted :
    parse_compilation_errors "! LaTeX Error: File `minted.sty\x27 not found." = ["minted"]
    ∧ is_package_related_error "! LaTeX Error: File `minted.sty\x27 not found." = true :=
  ⟨by decide, by decide⟩


theorem extract_dependencies_line (line : List Char) (n : Nat) (d : TeXDependency)
    (hd : d ∈ extract_dependencies line n) : d.line_number = n := by
  simp only [extract_dependencies, List.mem_append, List.mem_map] at hd
  rcases hd with ((((((h | h) | h) | h) | h) | h) | h) | h <;>
    · obtain ⟨x, hx, rfl⟩ := h
      rfl

theorem lineDeps_line (line : List Char) (n : Nat) (d : TeXDependency)
    (hd : d ∈ lineDeps line n) : d.line_number = n := by
  unfold lineDeps at hd
  cases he : effectiveLine line with
  | none => rw [he] at hd; simp at hd
  | some el =>
    rw [he] at hd
    exact extract_dependencies_line el n d hd

theorem pairwise_le_of_const (l : List Nat) (c : Nat) (h : ∀ x ∈ l, x = c) :
    List.Pairwise (fun a b => a ≤ b) l := by
  induction l with
  | nil => exact List.Pairwise.nil
  | cons x t ih =>
    refine List.Pairwise.cons ?_ (ih (fun y hy => h y (List.mem_cons_of_mem x hy)))
    intro y hy
    rw [h x (List.mem_cons_self x t), h y (List.mem_cons_of_mem x hy)]

theorem parseLines_props (ls : List (List Char)) :
    ∀ n : Nat,
      (∀ d ∈ parseLines n ls, n + 1 ≤ d.line_number)
      ∧ List.Pairwise (fun a b => a ≤ b)
          ((parseLines n ls).map (fun d => d.line_number)) := by
  induction ls with
  | nil => intro n; simp [parseLines]
  | cons l t ih =>
    intro n
    have hhead : ∀ d ∈ lineDeps l (n + 1), d.line_number = n + 1 :=
      fun d hd => lineDeps_line l (n + 1) d hd
    have htail := ih (n + 1)
    constructor
    · intro d hd
      rw [parseLines] at hd
      rcases List.mem_append.mp hd with h1 | h2
      · rw [hhead d h1]
      · have := htail.1 d h2
        omega
    · rw [parseLines, List.map_append, List.pairwise_append]
      refine ⟨?_, htail.2, ?_⟩
      · apply pairwise_le_of_const _ (n + 1)
        intro x hx
        obtain ⟨d, hd, rfl⟩ := List.mem_map.mp hx
        exact hhead d hd
      · intro a ha b hb
        obtain ⟨d, hd, rfl⟩ := List.mem_map.mp ha
        obtain ⟨e, he, rfl⟩ := List.mem_map.mp hb
        have h1 := hhead d hd
        have h2 := htail.1 e he
        omega

/-- Claim C9: `parse_content` is total — it returns `Ok` on every input —
and every returned dependency has a 1-indexed line number, the sequence of
line numbers being monotonically non-decreasing in return order. -/
theorem c9_parse_content_total_monotone (content : String) :
    parse_content content = .ok (parseContentList content)
    ∧ (∀ d ∈ parseContentList content, 1 ≤ d.line_number)
    ∧ List.Pairwise (fun a b => a ≤ b)
        ((parseContentList content).map (fun d => d.line_number)) := by
  have h := parseLines_props (rustLinesCh content.toList) 0
  exact ⟨rfl, fun d hd => h.1 d hd, h.2⟩

/-- Claim C1 (counterexample): a failing compile step whose output is
package-related (`Unknown environment`) but yields no extractable package
name does NOT make the run surface an error — `detect_missing_packages_by_compilation_once`
returns `Ok` with an empty list and the outer loop then stops after one
iteration reporting success with an empty missing-package list. -/
theorem c1_counterexample :
    parse_compilation_errors "Unknown environment" = []
    ∧ is_package_related_error "Unknown environment" = true
    ∧ detectOnce [⟨["pdflatex"], .ok (false, "Unknown environment")⟩] = .ok []
    ∧ detectFull (fun _ => detectOnce [⟨["pdflatex"], .ok (false, "Unknown environment")⟩])
        = (.ok [], 1) :=
  ⟨by decide, by decide, by decide, by decide⟩

/-- Claim C1 (amended): when a compile step fails, the relatedness verdict
is `true` and the extracted name set is empty, the single-shot detection
stops trying further steps and returns `Ok` with the (empty) accumulated
list, and the iterative loop then terminates after one iteration reporting
an empty missing-package list — no error is surfaced. -/
theorem c1_amended (a : List String) (out : String) (rest : List CompileStep)
    (hne : a ≠ [])
    (hparse : parse_compilation_errors out = [])
    (hrel : is_package_related_error out = true) :
    detectOnce (⟨a, .ok (false, out)⟩ :: rest) = .ok []
    ∧ detectFull (fun _ => detectOnce (⟨a, .ok (false, out)⟩ :: rest)) = (.ok [], 1) := by
  have ha : a.isEmpty = false := by
    cases a with
    | nil => exact absurd rfl hne
    | cons x t => rfl
  have honce : detectOnce (⟨a, .ok (false, out)⟩ :: rest) = .ok [] := by
    unfold detectOnce
    rw [if_neg (by simp)]
    rw [onceGo]
    simp only [ha, Bool.false_eq_true, if_false, hparse, hrel, List.isEmpty_nil, if_true]
  refine ⟨honce, ?_⟩
  have hlist : List.range' 1 10 = 1 :: List.range' 2 9 := rfl
  rw [detectFull, hlist, detectGo, honce]
  simp

theorem c1_amended_witness :
    detectOnce (⟨["xelatex"], .ok (false, "Unknown environment")⟩ :: [])  = .ok []
    ∧ detectFull (fun _ => detectOnce (⟨["xelatex"], .ok (false, "Unknown environment")⟩ :: []))
        = (.ok [], 1) :=
  c1_amended ["xelatex"] "Unknown environment" [] (by decide) (by decide) (by decide)

/-- Claim C2: if every invocation of the probe yields the same single
missing package `p`, the iterative loop stops after exactly 2 probe
invocations (the Stalled exit: nothing new on the second pass) and returns
exactly `[p]` — it does not run to the 10-iteration ceiling. -/
theorem c2_stalls_after_two (chain : Nat → List CompileStep) (p : String)
    (h : ∀ i, detectOnce (chain i) = .ok [p]) :
    detectFull (fun i => detectOnce (chain i)) = (.ok [p], 2)
    ∧ detect_missing_packages_by_compilation (fun i => detectOnce (chain i)) = .ok [p] := by
  have hmerge1 : mergePackages [] [p] = ([p], true) := by
    simp [mergePackages]
  have hmerge2 : mergePackages [p] [p] = ([p], false) := by
    simp [mergePackages]
  have hfull : detectFull (fun i => detectOnce (chain i)) = (.ok [p], 2) := by
    have hl1 : List.range' 1 10 = 1 :: 2 :: List.range' 3 8 := rfl
    rw [detectFull, hl1, detectGo, h 1]
    simp only [List.isEmpty_cons, if_false, hmerge1]
    rw [detectGo, h 2]
    simp only [List.isEmpty_cons, if_false, hmerge2]
    rfl
  exact ⟨hfull, by rw [detect_missing_packages_by_compilation, hfull]⟩

def c2chain : List CompileStep :=
  [⟨["latexmk", "main.tex"], .ok (false, "! LaTeX Error: File `tikz.sty\x27 not found.")⟩]

theorem c2_stalls_after_two_witness :
    detectFull (fun _ => detectOnce c2chain) = (.ok ["tikz"], 2)
    ∧ detect_missing_packages_by_compilation (fun _ => detectOnce c2chain) = .ok ["tikz"] := by
  have hd : detectOnce c2chain = .ok ["tikz"] := by decide
  exact c2_stalls_after_two (fun _ => c2chain) "tikz" (fun _ => hd)

/-! ## Claims C3, C4, C10: the dependency graph resolver -/

theorem insertLe_perm {α : Type} (le : α → α → Bool) (x : α) (l : List α) :
    (insertLe le x l).Perm (x :: l) := by
  induction l with
  | nil => exact List.Perm.refl _
  | cons y ys ih =>
    rw [insertLe]
    by_cases h : le y x = true
    · rw [if_pos h]
      exact (List.Perm.cons y ih).trans (List.Perm.swap x y ys)
    · rw [if_neg h]

theorem stableSort_fold_perm {α : Type} (le : α → α → Bool) :
    ∀ (l acc : List α), (l.foldl (fun a x => insertLe le x a) acc).Perm (acc ++ l) := by
  intro l
  induction l with
  | nil => intro acc; simp
  | cons x t ih =>
    intro acc
    rw [List.foldl_cons]
    refine (ih (insertLe le x acc)).trans ?_
    refine ((insertLe_perm le x acc).append_right t).trans ?_
    rw [List.cons_append]
    exact List.perm_middle.symm

theorem stableSort_perm {α : Type} (le : α → α → Bool) (l : List α) :
    (stableSort le l).Perm l := by
  simpa using stableSort_fold_perm le l []

def cycA : ResolvedPackage := ⟨"a", "1.0", [⟨"b", "", false⟩]⟩
def cycB : ResolvedPackage := ⟨"b", "1.0", [⟨"a", "", false⟩]⟩
def cycResolver : DependencyResolver := ⟨[("a", [cycA]), ("b", [cycB])]⟩

/-- Claim C3 (counterexample): on the two-package cycle a ↔ b, neither name
ever reaches in-degree zero (`kahnOrder` is empty), yet `resolve` returns
both packages — cyclic packages are NOT dropped from the returned list. -/
theorem c3_counterexample :
    resolve cycResolver ["a"] = .ok [cycA, cycB]
    ∧ "a" ∉ kahnOrder [cycA, cycB]
    ∧ "b" ∉ kahnOrder [cycA, cycB] := by
  have e1 : resolveLoop cycResolver ["a"] [] [] = resolveLoop cycResolver ["b"] ["a"] [cycA] := by
    conv_lhs => rw [resolveLoop]
    rw [if_neg (by decide)]
    split
    · next pkg hp =>
        rw [show find_best_version cycResolver "a" = some cycA from rfl] at hp
        injection hp with hp
        subst hp
        simp [cycA]
    · next hn =>
        rw [show find_best_version cycResolver "a" = some cycA from rfl] at hn
        cases hn
  have e2 : resolveLoop cycResolver ["b"] ["a"] [cycA]
      = resolveLoop cycResolver [] ["b", "a"] [cycA, cycB] := by
    conv_lhs => rw [resolveLoop]
    rw [if_neg (by decide)]
    split
    · next pkg hp =>
        rw [show find_best_version cycResolver "b" = some cycB from rfl] at hp
        injection hp with hp
        subst hp
        simp [cycB]
    · next hn =>
        rw [show find_best_version cycResolver "b" = some cycB from rfl] at hn
        cases hn
  have hloop : resolveLoop cycResolver ["a"] [] [] = [cycA, cycB] := by
    rw [e1, e2, resolveLoop]
  have hres : resolveList cycResolver ["a"] = [cycA, cycB] := by
    unfold resolveList
    rw [hloop]
    decide
  refine ⟨?_, by decide, by decide⟩
  unfold resolve
  rw [hres]

/-- Claim C3 (amended): `sort_by_dependencies` only permutes its input:
packages on a true dependency cycle are never enqueued in the internal
topological sort and are missing from its order, but they are not dropped
from the list `resolve` returns — the final stable sort ranks them at
`usize::MAX` and keeps them, after all sortable packages. -/
theorem c3_amended (packages : List ResolvedPackage) :
    (sort_by_dependencies packages).Perm packages := by
  unfold sort_by_dependencies
  exact stableSort_perm _ packages

/-- Claim C4 (counterexample): with three entries of the same name and
versions 1, 2, 3, only the pairs against the first-recorded version are
reported; the differing pair (2, 3) produces no conflict entry. -/
theorem c4_counterexample :
    check_conflicts [⟨"p", "1", []⟩, ⟨"p", "2", []⟩, ⟨"p", "3", []⟩]
      = ["Version conflict for p: 1 vs 2", "Version conflict for p: 1 vs 3"]
    ∧ "Version conflict for p: 2 vs 3"
        ∉ check_conflicts [⟨"p", "1", []⟩, ⟨"p", "2", []⟩, ⟨"p", "3", []⟩]
    ∧ "Version conflict for p: 3 vs 2"
        ∉ check_conflicts [⟨"p", "1", []⟩, ⟨"p", "2", []⟩, ⟨"p", "3", []⟩]
    ∧ (⟨"p", "2", []⟩ : ResolvedPackage).name = (⟨"p", "3", []⟩ : ResolvedPackage).name
    ∧ (⟨"p", "2", []⟩ : ResolvedPackage).version
        ≠ (⟨"p", "3", []⟩ : ResolvedPackage).version := by
  decide

theorem mapGet?_append_single {α : Type} (seen : List (String × α)) (k : String) (v : α)
    (name : String) :
    mapGet? (seen ++ [(k, v)]) name
      = match mapGet? seen name with
        | some w => some w
        | none => if k == name then some v else none := by
  unfold mapGet?
  rw [List.find?_append]
  cases hf : seen.find? (fun kv => kv.1 == name) with
  | some kv => simp
  | none =>
    simp only [Option.or, Option.map]
    cases hk : (k == name) with
    | true => simp [List.find?, hk]
    | false => simp [List.find?, hk]
theorem checkConflictsGo_cons_some (q : ResolvedPackage) (t : List ResolvedPackage)
    (seen : List (String × String)) (w : String) (hq : mapGet? seen q.name = some w) :
    checkConflictsGo (q :: t) seen
      = if w ≠ q.version then conflictMsg q.name w q.version :: checkConflictsGo t seen
        else checkConflictsGo t seen := by
  rw [checkConflictsGo, hq]

theorem checkConflictsGo_cons_none (q : ResolvedPackage) (t : List ResolvedPackage)
    (seen : List (String × String)) (hq : mapGet? seen q.name = none) :
    checkConflictsGo (q :: t) seen = checkConflictsGo t (seen ++ [(q.name, q.version)]) := by
  rw [checkConflictsGo, hq]

theorem checkConflictsGo_mem :
    ∀ (rest : List ResolvedPackage) (seen : List (String × String))
      (p : ResolvedPackage) (v0 : String),
      p ∈ rest →
      (mapGet? seen p.name = some v0
        ∨ (mapGet? seen p.name = none ∧ firstVersion rest p.name = some v0)) →
      v0 ≠ p.version →
      conflictMsg p.name v0 p.version ∈ checkConflictsGo rest seen := by
  intro rest
  induction rest with
  | nil =>
    intro seen p v0 hmem _ _
    simp at hmem
  | cons q t ih =>
    intro seen p v0 hmem hv hne
    cases hq : mapGet? seen q.name with
    | some w =>
      rw [checkConflictsGo_cons_some q t seen w hq]
      rcases List.mem_cons.mp hmem with rfl | hmt
      · rcases hv with hv | ⟨hnone, _⟩
        · rw [hq] at hv
          injection hv with hv
          subst hv
          rw [if_pos hne]
          exact List.mem_cons_self _ _
        · rw [hnone] at hq
          cases hq
      · have hv2 : mapGet? seen p.name = some v0
            ∨ (mapGet? seen p.name = none ∧ firstVersion t p.name = some v0) := by
          rcases hv with hv | ⟨hnone, hfirst⟩
          · exact Or.inl hv
          · by_cases hpq : q.name = p.name
            · rw [← hpq] at hnone
              rw [hnone] at hq
              cases hq
            · refine Or.inr ⟨hnone, ?_⟩
              unfold firstVersion at hfirst ⊢
              rw [List.find?_cons_of_neg _ (by simp [hpq])] at hfirst
              exact hfirst
        have hrec := ih seen p v0 hmt hv2 hne
        by_cases hcond : w ≠ q.version
        · rw [if_pos hcond]
          exact List.mem_cons_of_mem _ hrec
        · rw [if_neg hcond]
          exact hrec
    | none =>
      rw [checkConflictsGo_cons_none q t seen hq]
      rcases List.mem_cons.mp hmem with rfl | hmt
      · rcases hv with hv | ⟨_, hfirst⟩
        · rw [hq] at hv
          cases hv
        · have hself : firstVersion (p :: t) p.name = some p.version := by
            unfold firstVersion
            rw [List.find?_cons_of_pos _ (by simp)]
            rfl
          rw [hself] at hfirst
          injection hfirst with hfirst
          exact absurd hfirst.symm hne
      · rcases hv with hv | ⟨hnone, hfirst⟩
        · have hv2 : mapGet? (seen ++ [(q.name, q.version)]) p.name = some v0 := by
            rw [mapGet?_append_single, hv]
          exact ih _ p v0 hmt (Or.inl hv2) hne
        · by_cases hpq : q.name = p.name
          · have hvq : q.version = v0 := by
              unfold firstVersion at hfirst
              rw [List.find?_cons_of_pos _ (by simp [hpq])] at hfirst
              simpa using hfirst
            have hv2 : mapGet? (seen ++ [(q.name, q.version)]) p.name = some v0 := by
              rw [mapGet?_append_single, hnone]
              simp [hpq, hvq]
            exact ih _ p v0 hmt (Or.inl hv2) hne
          · have hnone2 : mapGet? (seen ++ [(q.name, q.version)]) p.name = none := by
              rw [mapGet?_append_single, hnone]
              simp [hpq]
            have hfirst2 : firstVersion t p.name = some v0 := by
              unfold firstVersion at hfirst ⊢
              rw [List.find?_cons_of_neg _ (by simp [hpq])] at hfirst
              exact hfirst
            exact ih _ p v0 hmt (Or.inr ⟨hnone2, hfirst2⟩) hne
/-- Claim C4 (amended): `check_conflicts` reports, for every entry whose
name was already recorded with a different version, a conflict against the
FIRST version recorded for that name; pairs formed by two later entries are
never compared. -/
theorem c4_amended (packages : List ResolvedPackage) (p : ResolvedPackage) (v0 : String)
    (hmem : p ∈ packages) (hfirst : firstVersion packages p.name = some v0)
    (hne : v0 ≠ p.version) :
    conflictMsg p.name v0 p.version ∈ check_conflicts packages := by
  unfold check_conflicts
  refine checkConflictsGo_mem packages [] p v0 hmem (Or.inr ⟨rfl, hfirst⟩) hne

theorem c4_amended_witness :
    conflictMsg "q" "1" "2"
      ∈ check_conflicts [⟨"q", "1", []⟩, ⟨"q", "2", []⟩] :=
  c4_amended [⟨"q", "1", []⟩, ⟨"q", "2", []⟩] ⟨"q", "2", []⟩ "1"
    (by decide) (by decide) (by decide)

theorem resolveLoop_provenance (r : DependencyResolver) (q v : List String)
    (acc : List ResolvedPackage) :
    ∀ p ∈ resolveLoop r q v acc, p ∈ acc ∨ ∃ kv ∈ r.packages, p ∈ kv.2 := by
  induction q, v, acc using resolveLoop.induct r with
  | case1 visited resolved =>
    rw [resolveLoop]
    exact fun p hp => Or.inl hp
  | case2 n rest visited resolved hv ih =>
    intro p hp
    rw [resolveLoop, if_pos hv] at hp
    exact ih p hp
  | case3 n rest visited resolved hv pkg h ih =>
    intro p hp
    rw [resolveLoop, if_neg hv] at hp
    split at hp
    · next pkg2 h2 =>
        rw [h] at h2
        injection h2 with h2
        subst h2
        rcases ih p hp with hacc | hcat
        · rcases List.mem_append.mp hacc with h1 | h2
          · exact Or.inl h1
          · right
            simp at h2
            subst h2
            obtain ⟨kv, hkv, _, hmemkv⟩ := fbv_sound r n p h
            exact ⟨kv, hkv, hmemkv⟩
        · exact Or.inr hcat
    · next h2 =>
        rw [h] at h2
        cases h2
  | case4 n rest visited resolved hv h ih =>
    intro p hp
    rw [resolveLoop, if_neg hv] at hp
    split at hp
    · next pkg2 h2 =>
        rw [h] at h2
        cases h2
    · next h2 => exact ih p hp

/-- Claim C10: a root name with no catalog entry never causes an error —
`resolve` still returns `Ok` — and the name is silently absent from the
returned installation order (for any well-formed catalog, in which packages
are stored under their own name, as `add_package` guarantees). -/
theorem c10_unknown_root (r : DependencyResolver) (roots : List String) (name : String)
    (hwf : ∀ kv ∈ r.packages, ∀ p ∈ kv.2, p.name = kv.1)
    (hnone : lookupPkgs r name = none) :
    resolve r roots = .ok (resolveList r roots)
    ∧ name ∉ (resolveList r roots).map (fun p => p.name) := by
  refine ⟨rfl, ?_⟩
  intro hmem
  obtain ⟨p, hp, hpname⟩ := List.mem_map.mp hmem
  have hp2 : p ∈ resolveLoop r roots [] [] := by
    unfold resolveList sort_by_dependencies at hp
    exact (stableSort_perm _ _).mem_iff.mp hp
  rcases resolveLoop_provenance r roots [] [] p hp2 with habs | ⟨kv, hkv, hpkv⟩
  · simp at habs
  · have h1 : p.name = kv.1 := hwf kv hkv p hpkv
    have hfindnone := Option.map_eq_none'.mp hnone
    have h2 := List.find?_eq_none.mp hfindnone kv hkv
    simp at h2
    rw [h1] at hpname
    exact h2 hpname

def c10pkg : ResolvedPackage := ⟨"x", "1", []⟩
def c10resolver : DependencyResolver := ⟨[("x", [c10pkg])]⟩

theorem c10_unknown_root_witness :
    resolve c10resolver ["x", "ghost"] = .ok (resolveList c10resolver ["x", "ghost"])
    ∧ "ghost" ∉ (resolveList c10resolver ["x", "ghost"]).map (fun p => p.name) :=
  c10_unknown_root c10resolver ["x", "ghost"] "ghost" (by decide) (by decide)

/-! ## Claim C5: working-directory restoration in `compile_command` -/

def c5envLoadErr : CompileEnv :=
  ⟨"/proj", .error "invalid TOML in tpmgr.toml", .ok (), .ok [["pdflatex", "main.tex"]],
   [], false, .ok ()⟩

def c5envEmptyChain : CompileEnv :=
  ⟨"/proj", .ok (), .ok (), .ok [], [], false, .ok ()⟩

def c5envStepFails : CompileEnv :=
  ⟨"/proj", .ok (), .ok (), .ok [["pdflatex", "main.tex"]], [some false], false, .ok ()⟩

def c5envAllOk : CompileEnv :=
  ⟨"/proj", .ok (), .ok (), .ok [["pdflatex", "main.tex"]], [some true], false, .ok ()⟩

/-- Claim C5: the success and failing-step paths do restore the original
working directory, but the early exits do not: a configuration-load error
(`?` at line 879) and the empty-chain `return Ok(())` at line 923 leave the
process in the project directory instead of the original one. -/
theorem c5_cwd_restoration :
    compile_command c5envAllOk "/orig" false = (.ok (), "/orig")
    ∧ compile_command c5envStepFails "/orig" false = (.ok (), "/orig")
    ∧ compile_command c5envLoadErr "/orig" false
        = (.error "invalid TOML in tpmgr.toml", "/proj")
    ∧ compile_command c5envEmptyChain "/orig" false = (.ok (), "/proj")
    ∧ "/proj" ≠ "/orig" := by
  decide

/-! ## Claim C6: comment stripping in `parse_content` -/

/-- Claim C6 (counterexample): in the line `\%x % \usepackage{foo}` the
first `%` (index 1) is escaped, so the whole line is kept — including the
part after the unescaped `%` at index 4 (preceded by a space) — and the
dependency `foo`, which occurs strictly after that unescaped `%`, is
reported. -/
theorem c6_counterexample :
    ("\\%x % \\usepackage\x7bfoo\x7d".toList.get? 4 = some '%')
    ∧ ("\\%x % \\usepackage\x7bfoo\x7d".toList.get? 3 = some ' ')
    ∧ parse_content "\\%x % \\usepackage\x7bfoo\x7d"
        = .ok [⟨"foo", DependencyType.UsePackage, 1, "\\%x % \\usepackage\x7bfoo\x7d"⟩] := by
  refine ⟨by decide, by decide, by decide⟩

/-- Claim C6 (amended): comment stripping inspects only the FIRST `%` of a
line, and the escape check mixes index spaces: with `pos` the character
index of the first `%` and `byteIdx line pos` its byte offset (the value
`line.find('%')` returns), the whole line is kept — including anything
after a later unescaped `%` — exactly when the character at CHARACTER
position `byteIdx line pos - 1` is `\`; otherwise extraction applies only
to the prefix strictly before the first `%`, the line being skipped when
that prefix trims to nothing.  Only on lines that are pure ASCII up to the
first `%` does the inspected character coincide with the one immediately
before the `%`; on `日%\usepackage{x}` the inspected character (character
index 2, from byte offset 3) is the `\` after the `%`, so the whole line is
kept and the dependency `x` is reported. -/
theorem c6_amended :
    (∀ (line : List Char) (n i : Nat),
      line.findIdx? (fun c => c == '%') = some i →
      (byteIdx line i = 0 ∨ ¬(line.get? (byteIdx line i - 1) = some '\\')) →
      lineDeps line n
        = if (trimCh (line.take i)).isEmpty then []
          else extract_dependencies (line.take i) n)
    ∧ (∀ (line : List Char) (n i : Nat),
      line.findIdx? (fun c => c == '%') = some i →
      0 < byteIdx line i → line.get? (byteIdx line i - 1) = some '\\' →
      lineDeps line n = extract_dependencies line n)
    ∧ parse_content "日%\\usepackage\x7bx\x7d"
        = .ok [⟨"x", DependencyType.UsePackage, 1, "日%\\usepackage\x7bx\x7d"⟩] := by
  refine ⟨?_, ?_, by decide⟩
  · intro line n i hidx hesc
    unfold lineDeps effectiveLine
    simp only [hidx]
    have hcond : (decide (byteIdx line i > 0)
        && (line.get? (byteIdx line i - 1) == some '\\')) = false := by
      rcases hesc with hz | hne
      · rw [hz]
        simp
      · rw [beq_eq_false_iff_ne.mpr hne, Bool.and_false]
    rw [hcond]
    simp only [Bool.false_eq_true, if_false]
    by_cases hemp : (trimCh (line.take i)).isEmpty = true
    · simp [hemp]
    · simp [hemp]
  · intro line n i hidx hpos hesc
    unfold lineDeps effectiveLine
    simp only [hidx]
    have hcond : (decide (byteIdx line i > 0)
        && (line.get? (byteIdx line i - 1) == some '\\')) = true := by
      rw [beq_iff_eq.mpr hesc, decide_eq_true hpos, Bool.and_self]
    rw [hcond]
    simp

theorem c6_amended_witness :
    lineDeps ("a%b".toList) 7
      = if (trimCh (("a%b".toList).take 1)).isEmpty then []
        else extract_dependencies (("a%b".toList).take 1) 7 :=
  c6_amended.1 ("a%b".toList) 7 1 (by decide) (Or.inr (by decide))

end Tpmgr
